import Mathlib

/-!
# Verification of the Amanuensis storage/index engine

Shallow embedding of the `Index` class and the normalizer registry from
`src/modules/components.tsx`, together with theorems settling the claims
about it.  JavaScript `Map`s and plain objects are modelled as association
lists (insertion-ordered, unique keys via `alSet`), promises as explicit
`Option`/`Except` results (with `Option.none` / an error message standing
for a thrown exception or a rejected promise), and the asynchronous
`chrome.storage.local` area as an association list of typed values whose
operations always succeed.
-/

set_option linter.unusedVariables false

namespace Aman

/-! ## Association lists: the model of JS `Map` and plain objects -/

/-- First value stored under `k`, like `Map.get` / object indexing. -/
def alGet {κ : Type} {α : Type} [DecidableEq κ] : List (κ × α) → κ → Option α
  | [], _ => Option.none
  | (k', v) :: rest, k => if k = k' then some v else alGet rest k

/-- `Map.set` / object assignment: update the first entry with key `k` in
place, or append a new entry at the end (insertion order, as in JS). -/
def alSet {κ : Type} {α : Type} [DecidableEq κ] : List (κ × α) → κ → α → List (κ × α)
  | [], k, v => [(k, v)]
  | (k', v') :: rest, k, v =>
    if k = k' then (k, v) :: rest else (k', v') :: alSet rest k v

/-- `Map.delete` / the `delete` operator: drop every entry with key `k`. -/
def alDel {κ : Type} {α : Type} [DecidableEq κ] : List (κ × α) → κ → List (κ × α)
  | [], _ => []
  | (k', v) :: rest, k => if k = k' then alDel rest k else (k', v) :: alDel rest k

@[simp] theorem alGet_nil {κ α : Type} [DecidableEq κ] (k : κ) :
    alGet ([] : List (κ × α)) k = Option.none := rfl

@[simp] theorem alGet_cons {κ α : Type} [DecidableEq κ] (k k' : κ) (v : α) (l : List (κ × α)) :
    alGet ((k', v) :: l) k = if k = k' then some v else alGet l k := rfl

@[simp] theorem alSet_nil {κ α : Type} [DecidableEq κ] (k : κ) (v : α) :
    alSet ([] : List (κ × α)) k v = [(k, v)] := rfl

theorem alGet_alSet_self {κ α : Type} [DecidableEq κ] (l : List (κ × α)) (k : κ) (v : α) :
    alGet (alSet l k v) k = some v := by
  induction l with
  | nil => simp [alSet]
  | cons e rest ih =>
    obtain ⟨k', v'⟩ := e
    by_cases h : k = k' <;> simp [alSet, alGet, h, ih]

theorem alGet_alSet_ne {κ α : Type} [DecidableEq κ] (l : List (κ × α)) (k k' : κ) (v : α)
    (h : k ≠ k') : alGet (alSet l k' v) k = alGet l k := by
  induction l with
  | nil => simp [alSet, alGet, h]
  | cons e rest ih =>
    obtain ⟨k'', v''⟩ := e
    by_cases h2 : k' = k'' <;> by_cases h3 : k = k'' <;>
      simp_all [alSet, alGet]

theorem alDel_mem {κ α : Type} [DecidableEq κ] (l : List (κ × α)) (k k' : κ) (v : α)
    (hmem : (k, v) ∈ l) (hne : k ≠ k') : (k, v) ∈ alDel l k' := by
  induction l with
  | nil => simp at hmem
  | cons e rest ih =>
    obtain ⟨k'', v''⟩ := e
    rcases List.mem_cons.mp hmem with heq | htail
    · rw [Prod.mk.injEq] at heq
      obtain ⟨rfl, rfl⟩ := heq
      simp only [alDel]
      rw [if_neg (fun h => hne h.symm)]
      exact List.mem_cons_self _ _
    · simp only [alDel]
      split
      · exact ih htail
      · exact List.mem_cons_of_mem _ (ih htail)

/-! ## JS-flavoured helpers -/

/-- A JavaScript string-or-null-or-undefined value, as returned by
`Index.reverseRelation` and by single-character string indexing. -/
inductive JSStr where
  | str : String → JSStr
  | null : JSStr
  | jsUndefined : JSStr
deriving DecidableEq, Repr

/-- JS truthiness of a `JSStr`: the empty string, `null` and `undefined`
are falsy. -/
def JSStr.truthy : JSStr → Bool
  | .str s => !(s = "")
  | .null => false
  | .jsUndefined => false

/-- `v || d` on a string-valued JS expression. -/
def jsOr (v : JSStr) (d : String) : String :=
  match v with
  | .str s => if s = "" then d else s
  | _ => d

/-- `s[i]` on a JS string: a one-character string, or `undefined` past
the end. -/
def jsCharAt (s : String) (i : Nat) : JSStr :=
  match h : s.data.get? i with
  | some c => .str (String.singleton c)
  | Option.none => .jsUndefined

/-- JS truthiness of an array value: arrays are objects, hence truthy even
when empty.  `find`'s ad hoc branch tests `Object.keys(requirements)` (an
array) directly, so the test is always true. -/
def arrayTruthy (keys : List String) : Bool := true

/-- The composite key string `"<projectPk>:<notePk>"`. -/
def enkey (p n : Nat) : String := toString p ++ ":" ++ toString n

/-- `Number.parseInt(key.split(":")[0])`: the decimal value of the digits
before the first colon (keys produced by the index are always decimal). -/
def parsePk (s : String) : Nat :=
  (s.data.takeWhile (fun c => !(c = ':'))).foldl (fun acc c => acc * 10 + (c.toNat - 48)) 0

/-- `needle` is a prefix of `hay` (helper for substring search). -/
def prefixAt : List Char → List Char → Bool
  | [], _ => true
  | _ :: _, [] => false
  | a :: as, b :: bs => a = b && prefixAt as bs

/-- `hay.indexOf(needle) !== -1`: substring occurrence, on character
lists. -/
def hasSubL (needle : List Char) : List Char → Bool
  | [] => prefixAt needle []
  | c :: rest => prefixAt needle (c :: rest) || hasSubL needle rest

/-- `hay.indexOf(needle) !== -1` on strings. -/
def hasSub (hay needle : String) : Bool := hasSubL needle.data hay.data

/-- The fuzzy matcher built by `find`: the characters of the normalized
query, regex-escaped and joined by `.*?`, tested unanchored — i.e. the
query is a subsequence of the candidate.  (Index keys are normalizer
output and contain no newline, so `.`-does-not-match-newline is moot.) -/
def subseqL : List Char → List Char → Bool
  | [], _ => true
  | _ :: _, [] => false
  | a :: as, b :: bs => if a = b then subseqL as bs else subseqL (a :: as) bs

/-! ## The normalizer registry (`normalizers` in the source)

Character-level Unicode operations (`String.normalize('NFD')`,
`toLowerCase`, the `\p{L}`/`\p{N}` classes, `\s`) are modelled by finite
tables covering ASCII, the German letters and a few representative
accented Latin letters, and acting as the identity (resp. `false`)
elsewhere. -/

/-- Table lookup with the key compared by equality; `Option.none` when the
key has no entry. -/
def tlook {α : Type} : List (Char × α) → Char → Option α
  | [], _ => Option.none
  | (k, v) :: rest, c => if c = k then some v else tlook rest c

theorem tlook_mem {α : Type} (t : List (Char × α)) (c : Char) (v : α)
    (h : tlook t c = some v) : (c, v) ∈ t := by
  induction t with
  | nil => simp [tlook] at h
  | cons e rest ih =>
    obtain ⟨k, w⟩ := e
    by_cases hc : c = k
    · subst hc
      simp [tlook] at h
      simp [h]
    · simp [tlook, hc] at h
      exact List.mem_cons_of_mem _ (ih h)

/-- JS `\s` for the characters that can occur here: space, tab, newline,
carriage return, vertical tab, form feed. -/
def isSpaceChar (c : Char) : Bool :=
  c ∈ [' ', '\t', '\n', '\r', '\x0b', '\x0c']

/-- NFD decomposition table for the precomposed Latin letters in the
model; every other character decomposes to itself. -/
def nfdTable : List (Char × List Char) :=
  [('ä', ['a', '\u0308']), ('ö', ['o', '\u0308']), ('ü', ['u', '\u0308']),
   ('Ä', ['A', '\u0308']), ('Ö', ['O', '\u0308']), ('Ü', ['U', '\u0308']),
   ('é', ['e', '\u0301']), ('É', ['E', '\u0301']),
   ('à', ['a', '\u0300']), ('ñ', ['n', '\u0303'])]

def nfd (c : Char) : List Char := (tlook nfdTable c).getD [c]

/-- A combining diacritical mark, the range removed by `stripDiacrics`:
`[̀-ͯ]`. -/
def isMark (c : Char) : Bool := 0x300 ≤ c.toNat && c.toNat ≤ 0x36f

/-- `stripDiacrics`: NFD-normalize, then strip combining marks. -/
def stripDiacrics (l : List Char) : List Char :=
  ((l.map nfd).flatten).filter (fun c => !isMark c)

/-- Lower-casing table (`toLowerCase` / `toLocaleLowerCase` restricted to
the model's alphabet); identity off the table. -/
def lowerTable : List (Char × Char) :=
  [('A', 'a'), ('B', 'b'), ('C', 'c'), ('D', 'd'), ('E', 'e'), ('F', 'f'),
   ('G', 'g'), ('H', 'h'), ('I', 'i'), ('J', 'j'), ('K', 'k'), ('L', 'l'),
   ('M', 'm'), ('N', 'n'), ('O', 'o'), ('P', 'p'), ('Q', 'q'), ('R', 'r'),
   ('S', 's'), ('T', 't'), ('U', 'u'), ('V', 'v'), ('W', 'w'), ('X', 'x'),
   ('Y', 'y'), ('Z', 'z'),
   ('Ä', 'ä'), ('Ö', 'ö'), ('Ü', 'ü'), ('É', 'é')]

def uToLower (c : Char) : Char := (tlook lowerTable c).getD c

/-- The letters of the model (the `\p{L}` class restricted to the
characters the theorems touch). -/
def uLetters : List Char :=
  ['a', 'b', 'c', 'd', 'e', 'f', 'g', 'h', 'i', 'j', 'k', 'l', 'm',
   'n', 'o', 'p', 'q', 'r', 's', 't', 'u', 'v', 'w', 'x', 'y', 'z',
   'A', 'B', 'C', 'D', 'E', 'F', 'G', 'H', 'I', 'J', 'K', 'L', 'M',
   'N', 'O', 'P', 'Q', 'R', 'S', 'T', 'U', 'V', 'W', 'X', 'Y', 'Z',
   'ä', 'ö', 'ü', 'ß', 'Ä', 'Ö', 'Ü', 'é', 'É', 'à', 'ñ']

def uIsLetter (c : Char) : Bool := c ∈ uLetters

def uIsNum (c : Char) : Bool :=
  c ∈ ['0', '1', '2', '3', '4', '5', '6', '7', '8', '9']

/-- A character kept by the `[^\p{L}\p{N} _'-]+` removal step: letter,
number, space, underscore, apostrophe or hyphen. -/
def isWordChar (c : Char) : Bool :=
  uIsLetter c || uIsNum c || c ∈ [' ', '_', Char.ofNat 39, '-']

/-- `.replace(/^\s+|\s+$/g, '')`: strip marginal whitespace. -/
def jsTrim (l : List Char) : List Char :=
  ((l.dropWhile isSpaceChar).reverse.dropWhile isSpaceChar).reverse

/-- State-machine form of `.replace(/\s+/g, ' ')`: the flag records
whether the previous character was whitespace (so the run has already
emitted its single space). -/
def collapseGo : Bool → List Char → List Char
  | _, [] => []
  | prevWs, c :: rest =>
    if isSpaceChar c then
      if prevWs then collapseGo true rest else ' ' :: collapseGo true rest
    else c :: collapseGo false rest

/-- `.replace(/\s+/g, ' ')`: collapse every whitespace run to one space. -/
def collapseWS (l : List Char) : List Char := collapseGo false l

/-- The default normalizer (`normalizers[""].code`): trim, collapse
whitespace, strip diacritics, drop non-word characters, lowercase. -/
def defaultCodeL (l : List Char) : List Char :=
  ((stripDiacrics (collapseWS (jsTrim l))).filter isWordChar).map uToLower

def defaultCode (s : String) : String := ⟨defaultCodeL s.data⟩

/-- The sequential `ß→ss`, `ä→ae`, `ö→oe`, `ü→ue` substitutions of the
German normalizer (their images contain none of the replaced letters, so
one simultaneous pass is equivalent to the source's four sequential
`.replace` calls). -/
def gsub (c : Char) : List Char :=
  if c = 'ß' then ['s', 's']
  else if c = 'ä' then ['a', 'e']
  else if c = 'ö' then ['o', 'e']
  else if c = 'ü' then ['u', 'e']
  else [c]

/-- The German normalizer (`normalizers["German"].code`): trim, collapse,
lowercase, substitute the German letters, strip diacritics, drop non-word
characters (no final lowercasing). -/
def germanCodeL (l : List Char) : List Char :=
  (stripDiacrics ((((collapseWS (jsTrim l)).map uToLower).map gsub).flatten)).filter isWordChar

def germanCode (s : String) : String := ⟨germanCodeL s.data⟩


/-! ## Data model (`modules/types.ts` as used by `components.tsx`) -/

/-- One citation of a phrase: the source URL and the visit timestamps
(`c.source.url` and `c.when` are the only fields the engine reads). -/
structure CitationRecord where
  url : String
  when : List Int
deriving DecidableEq, Repr

/-- The identity of a note: `[projectPk, notePk]`. -/
abbrev KeyPair := Nat × Nat

/-- The payload stored for one phrase in one project.  `relations` is a
plain JS object mapping a relation-type string to a list of key pairs. -/
structure NoteRecord where
  starred : Bool
  tags : List String
  citations : List CitationRecord
  relations : List (String × List KeyPair)
deriving DecidableEq, Repr

/-- A project's configuration record. -/
structure ProjectInfo where
  pk : Nat
  name : String
  description : String
  normalizer : String
  relations : List (String × String)
deriving DecidableEq, Repr

/-- A value stored in `chrome.storage.local`: a note record under a
`"p:n"` key, a phrase index under a decimal project-pk key, the project
list under `"projects"`, the tag list under `"tags"`, or a number under
`"currentProject"`. -/
inductive StoreVal where
  | note : NoteRecord → StoreVal
  | idx : List (String × Nat) → StoreVal
  | projects : List (String × ProjectInfo) → StoreVal
  | tags : List String → StoreVal
  | num : Nat → StoreVal
deriving DecidableEq, Repr

/-- The storage area, string-keyed.  All operations succeed (the
`chrome.runtime.lastError` branches are never taken in the model). -/
abbrev Store := List (String × StoreVal)

/-- `chrome.storage.local.get` of one note key; values of other shapes
under the key do not occur for `"p:n"` keys. -/
def storeNote (store : Store) (k : String) : Option NoteRecord :=
  match alGet store k with
  | some (.note n) => some n
  | _ => Option.none

/-- `chrome.storage.local.set(storable)`: merge the written object into
the store. -/
def storeSet (store : Store) (kvs : List (String × StoreVal)) : Store :=
  kvs.foldl (fun acc e => alSet acc e.1 e.2) store

/-- `chrome.storage.local.remove(keys)`. -/
def storeRemove (store : Store) (keys : List String) : Store :=
  keys.foldl (fun acc k => alDel acc k) store

/-- The in-memory state of the `Index` class (minus the `chrome` handle,
which the operations receive as an explicit `Store`). -/
structure Index where
  projects : List (String × ProjectInfo)
  currentProject : Nat
  projectIndices : List (Nat × List (String × Nat))
  tags : List String
  reverseProjectIndex : List (Nat × String)
  cache : List (String × NoteRecord)
deriving DecidableEq, Repr

/-- A project identifier: name, primary key, or the info record itself. -/
inductive PIdent where
  | name : String → PIdent
  | pk : Nat → PIdent
  | info : ProjectInfo → PIdent

/-- `makeDefaultProject`. -/
def makeDefaultProject : ProjectInfo :=
  { pk := 0
    name := ""
    description := "A project for notes that have no project."
    normalizer := ""
    relations := [("see also", "see also")] }

/-- `deepClone` restricted to note records; in the pure model a deep copy
is the value itself (aliasing has no observable meaning here). -/
def deepClone (n : NoteRecord) : NoteRecord := n

/-- `defaultProject()`: the entry stored under the empty name.  The
source casts the lookup (`as ProjectInfo`), so a missing entry surfaces
as `undefined`, modelled by `Option.none`. -/
def Index.defaultProj (idx : Index) : String × Option ProjectInfo :=
  ("", alGet idx.projects "")

/-- `findProject`: resolve a name, pk or info record to a
`[name, ProjectInfo]` pair, falling back to the default project. -/
def Index.findProj (idx : Index) : PIdent → String × Option ProjectInfo
  | .pk n =>
    match alGet idx.reverseProjectIndex n with
    | some r =>
      match alGet idx.projects r with
      | some ri => (r, some ri)
      | Option.none => idx.defaultProj
    | Option.none => idx.defaultProj
  | .name s =>
    match alGet idx.projects s with
    | some ri => (s, some ri)
    | Option.none => idx.defaultProj
  | .info p =>
    match alGet idx.reverseProjectIndex p.pk with
    | some r => (r, some p)
    | Option.none => idx.defaultProj

/-- The normalizer registry entry: primary key, display name and the
normalization function. -/
structure NormalizerInfo where
  pk : Nat
  name : String
  code : String → String

/-- `normalizers[key]`: only `""` (default) and `"German"` are
registered; any other key yields `undefined` (`Option.none`). -/
def normalizersGet (key : String) : Option NormalizerInfo :=
  if key = "" then some ⟨0, "default", defaultCode⟩
  else if key = "German" then some ⟨1, "German", germanCode⟩
  else Option.none

/-- `normalizer || ""` (the empty string is falsy). -/
def jsOrStr (a b : String) : String := if a = "" then b else a

/-- `Index.normalize(phrase, project)`.  `Option.none` models the
`TypeError` thrown when the project's normalizer key is not registered
(`normalizers[key]` is `undefined` and `.code` is read off it). -/
def Index.normalize (idx : Index) (phrase : String) (project : PIdent) : Option String :=
  let r : Option ProjectInfo :=
    match project with
    | .info p => some p
    | other => (idx.findProj other).2
  let normalizer : String :=
    match r with
    | some ri => ri.normalizer
    | Option.none => ""
  (normalizersGet (jsOrStr normalizer "")).map (fun n => n.code phrase)

/-- `allProjects()`: the keys of `projectIndices`. -/
def Index.allProjects (idx : Index) : List Nat :=
  idx.projectIndices.map (fun e => e.1)

/-- `projectIndex(phrase, project)`: the note pk of a phrase within a
project.  The outer `Option.none` models a thrown `TypeError` (missing
default project, unregistered normalizer, or no phrase index for the
project's pk); `some r` is the source's `number | null` return value. -/
def Index.projectIndexPk (idx : Index) (phrase : String) (project : PIdent) :
    Option (Option Nat) :=
  match (idx.findProj project).2 with
  | Option.none => Option.none
  | some info =>
    match idx.normalize phrase (.info info) with
    | Option.none => Option.none
    | some key =>
      match alGet idx.projectIndices info.pk with
      | Option.none => Option.none
      | some pIdx => some (alGet pIdx key)

/-- The loop body of `reverseRelation`: the source iterates the relations
array with `for...in`, so `pair` ranges over the *index strings*
`"0"`, `"1"`, …, and `pair[0]`/`pair[1]` are their characters. -/
def revRelGo (relation : String) : List Nat → JSStr
  | [] => .null
  | i :: rest =>
    let pair := toString i
    if jsCharAt pair 0 = .str relation then jsCharAt pair 1
    else if jsCharAt pair 1 = .str relation then jsCharAt pair 0
    else revRelGo relation rest

/-- `Index.reverseRelation` restricted to a resolved `ProjectInfo` (every
caller resolves the project first).  Because of the `for...in` loop it
scans index strings, not relation pairs. -/
def reverseRelationJS (info : ProjectInfo) (relation : String) : JSStr :=
  revRelGo relation (List.range info.relations.length)

/-- `memfree()`: reject on `lastError`, otherwise resolve
`5242880 - bytes` for the byte count reported by
`getBytesInUse`. -/
def Index.memfree (bytes : Nat) (lastError : Option String) : Except String Int :=
  match lastError with
  | some e => .error e
  | Option.none => .ok (5242880 - (bytes : Int))


/-! ## `Index.add` -/

/-- One step of the mirror loop in `add`, for one `pair` of one relation
entry of the incoming note.  State: the cache, the pending `storable`
object, and the relation's `reversedRelation` accumulator (`''` until
first assigned, per `||=`).  The target is read from the cache; if it
carries an entry under the reversed relation that does not yet contain
the new note's key pair, the pair is appended and the target queued for
writing (the source mutates the cached object in place; the model writes
the updated record back to the cache). -/
def addMirrorPair (pInfo : ProjectInfo) (relation : String) (keyPair : KeyPair)
    (st : List (String × NoteRecord) × List (String × StoreVal) × String) (pair : KeyPair) :
    List (String × NoteRecord) × List (String × StoreVal) × String :=
  let cache := st.1
  let storable := st.2.1
  let rrAcc := st.2.2
  match alGet cache (enkey pair.1 pair.2) with
  | Option.none => (cache, storable, rrAcc)
  | some other =>
    let rr := if rrAcc = "" then jsOr (reverseRelationJS pInfo relation) "" else rrAcc
    match alGet other.relations rr with
    | Option.none => (cache, storable, rr)
    | some pairs2 =>
      if keyPair ∈ pairs2 then (cache, storable, rr)
      else
        let other' := { other with relations := alSet other.relations rr (pairs2 ++ [keyPair]) }
        (alSet cache (enkey pair.1 pair.2) other',
         alSet storable (enkey pair.1 pair.2) (.note other'), rr)

/-- `Index.add({phrase, project, data})`.  Returns the updated in-memory
state and store; `Option.none` models a thrown exception (missing default
project or unregistered normalizer).  The store `set` always succeeds, so
the promise always resolves when nothing is thrown. -/
def Index.add (idx : Index) (store : Store) (phrase : String) (project : Nat)
    (data : NoteRecord) : Option (Index × Store) :=
  match (idx.findProj (.pk project)).2 with
  | Option.none => Option.none
  | some pInfo =>
    match idx.normalize phrase (.info pInfo) with
    | Option.none => Option.none
    | some key =>
      let hadIndex := (alGet idx.projectIndices pInfo.pk).isSome
      let pIndex := (alGet idx.projectIndices pInfo.pk).getD []
      let pkOpt := alGet pIndex key
      -- `max existing + 1` via the source's forEach fold
      let freshPk := pIndex.foldl (fun acc e => if acc ≤ e.2 then e.2 + 1 else acc) 0
      let pk := pkOpt.getD freshPk
      let pIndex' := if pkOpt.isSome then pIndex else alSet pIndex key pk
      let storable0 : List (String × StoreVal) :=
        if pkOpt.isSome then [] else [(toString pInfo.pk, .idx pIndex')]
      -- when the project had no index, the source's `|| new Map()` result
      -- is never written back to `projectIndices`
      let projectIndices' :=
        if hadIndex then alSet idx.projectIndices pInfo.pk pIndex' else idx.projectIndices
      let keyPair : KeyPair := (pInfo.pk, pk)
      let cache1 := alSet idx.cache (enkey keyPair.1 keyPair.2) data
      -- check for any new tags
      let tags' := data.tags.foldl (fun ts t => if t ∈ ts then ts else ts ++ [t]) idx.tags
      let storable1 :=
        if idx.tags.length < tags'.length then alSet storable0 "tags" (.tags tags') else storable0
      -- modify any phrases newly tied to this one by a relation
      let mirror := data.relations.foldl
        (fun st e =>
          let st' := e.2.foldl (addMirrorPair pInfo e.1 keyPair) (st.1, st.2, "")
          (st'.1, st'.2.1))
        (cache1, storable1)
      let storable2 := alSet mirror.2 (enkey keyPair.1 keyPair.2) (.note data)
      some
        ({ idx with
            projectIndices := projectIndices'
            tags := tags'
            cache := mirror.1 },
         storeSet store storable2)


/-! ## `Index.deleteRelation` -/

/-- `s[i]` interpolated into a template literal: the character, or the
string `"undefined"` past the end (as `${undefined}` renders). -/
def jsIdxStr (s : String) (i : Nat) : String :=
  match s.data.get? i with
  | some c => String.singleton c
  | Option.none => "undefined"

/-- The `continuation` of `deleteRelation`, entered once the far end
`other` of the relation has been resolved (`Option.none` when the store
had no record under the pair's key: the source then proceeds with an
empty object, and reading `.relations` off it throws once the reversed
relation is truthy).  On success the source stores `other` (mutated in
place, hence visible in the cache) and a clone `data2` of the source
record — the latter under the slip key `` `${key[0]}:${key[1]}` `` built
from the first two *characters* of the normalized phrase, and without
updating the cached source record. -/
def deleteRelationCont (idx : Index) (store : Store) (cacheNow : List (String × NoteRecord))
    (pInfo : ProjectInfo) (projectName : String) (relation : String) (pair : KeyPair)
    (key : String) (pk : Nat) (data : NoteRecord) (other : Option NoteRecord) :
    Except String (Index × Store) :=
  let rr := reverseRelationJS pInfo relation
  if rr.truthy then
    match other with
    | Option.none => .error "thrown: TypeError"
    | some other =>
      let rrs := jsOr rr ""
      let pairs2 := (alGet other.relations rrs).getD []
      let pairs22 := pairs2.filter (fun e => !(e.1 = pInfo.pk && e.2 = pk))
      let other' := { other with relations :=
        (if pairs22.length ≠ 0 then alSet other.relations rrs pairs22
         else alDel other.relations rrs) }
      let data2 := deepClone data
      let pairsN := (alGet data2.relations relation).getD []
      let pairsN' := pairsN.filter (fun e => !(e.1 = pair.1 && e.2 = pair.2))
      let data2' := { data2 with relations :=
        (if pairsN'.length ≠ 0 then alSet data2.relations relation pairsN'
         else alDel data2.relations relation) }
      let storable : List (String × StoreVal) :=
        [(enkey pair.1 pair.2, .note other'),
         (jsIdxStr key 0 ++ ":" ++ jsIdxStr key 1, .note data2')]
      .ok ({ idx with cache := alSet cacheNow (enkey pair.1 pair.2) other' },
           storeSet store storable)
  else
    .error ("could not find the reversed relation for " ++ relation ++ " in " ++ projectName)

/-- `Index.deleteRelation({phrase, project, relation, pair})`.  `.error`
carries the rejection message (or `"thrown: TypeError"` for the paths on
which the source would throw). -/
def Index.deleteRelation (idx : Index) (store : Store) (phrase : String) (project : PIdent)
    (relation : String) (pair : KeyPair) : Except String (Index × Store) :=
  let res := idx.findProj project
  let projectName := res.1
  match res.2 with
  | Option.none => .error "thrown: TypeError"
  | some pInfo =>
    match idx.normalize phrase (.info pInfo) with
    | Option.none => .error "thrown: TypeError"
    | some key =>
      match (alGet idx.projectIndices pInfo.pk).bind (fun pIdx => alGet pIdx key) with
      | Option.none =>
        .error ("the phrase " ++ phrase ++ " is not stored in " ++ projectName)
      | some pk =>
        match alGet idx.cache (enkey pInfo.pk pk) with
        | Option.none => .error "the phrase was not cached; this should be unreachable code"
        | some data =>
          match alGet idx.cache (enkey pair.1 pair.2) with
          | some other =>
            deleteRelationCont idx store idx.cache pInfo projectName relation pair key pk data
              (some other)
          | Option.none =>
            -- fetched from the store; the source caches the raw result
            -- object (modelled as the note itself when present)
            match storeNote store (enkey pair.1 pair.2) with
            | some n =>
              deleteRelationCont idx store (alSet idx.cache (enkey pair.1 pair.2) n)
                pInfo projectName relation pair key pk data (some n)
            | Option.none =>
              deleteRelationCont idx store idx.cache pInfo projectName relation pair key pk data
                Option.none


/-! ## `Index.find` -/

/-- A match: `[project, record]`. -/
abbrev Match := Nat × NoteRecord

/-- The `FindResponse` union. -/
inductive FindResponse where
  | found : Match → FindResponse
  | ambiguous : List Match → FindResponse
  | none : FindResponse
deriving DecidableEq, Repr

/-- The observable outcome of one `find` call: the resolved response, the
cache as it stands when the promise resolves, and the keys requested from
the store during the call. -/
structure FindOut where
  resp : FindResponse
  cache : List (String × NoteRecord)
  reads : List String
deriving DecidableEq, Repr

inductive Strictness where
  | exact
  | substring
  | fuzzy
deriving DecidableEq, Repr

/-- An ad hoc query; absent fields are `Option.none` (the callers omit
unused fields rather than setting them to `undefined`). -/
structure AdHocQ where
  phrase : Option String
  strictness : Option Strictness
  project : Option (List Nat)
  starred : Option Bool
  tagRequired : Option (List String)
  tagForbidden : Option (List String)
  url : Option String
  before : Option Int
  after : Option Int
deriving DecidableEq, Repr

/-- The two query shapes. -/
inductive Query where
  | lookup : String → Option Nat → Query
  | adHoc : AdHocQ → Query

/-- The keys left on the query object once `type` has been deleted
(input to the dead `Object.keys(requirements)` test). -/
def adHocPresentKeys (q : AdHocQ) : List String :=
  (if q.phrase.isSome then ["phrase"] else []) ++
  (if q.strictness.isSome then ["strictness"] else []) ++
  (if q.project.isSome then ["project"] else []) ++
  (if q.starred.isSome then ["starred"] else []) ++
  (if q.tagRequired.isSome then ["tagRequired"] else []) ++
  (if q.tagForbidden.isSome then ["tagForbidden"] else []) ++
  (if q.url.isSome then ["url"] else []) ++
  (if q.before.isSome then ["before"] else []) ++
  (if q.after.isSome then ["after"] else [])

/-- The filter applied to the gathered candidates in the ad hoc
continuation.  The source callback only returns a value inside the
`starred != null` branch; with `starred` unset it falls off the end and
returns `undefined`, which is falsy, so every candidate is dropped. -/
def adHocFilter (q : AdHocQ) (note : NoteRecord) : Bool :=
  match q.starred with
  | Option.none => false
  | some starred =>
    if starred && !note.starred then false
    else if !starred && note.starred then false
    else if (q.tagRequired.getD []).any (fun t => !(t ∈ note.tags)) then false
    else if (q.tagForbidden.getD []).any (fun t => t ∈ note.tags) then false
    else if (match q.url with
             | some u => note.citations.all (fun c => !(hasSub c.url u))
             | Option.none => false) then false
    else if (match q.before with
             | some b => note.citations.all (fun c => c.when.all (fun w => b < w))
             | Option.none => false) then false
    else if (match q.after with
             | some a => note.citations.all (fun c => c.when.all (fun w => w < a))
             | Option.none => false) then false
    else true

/-- The continuation of the ad hoc branch: filter, then resolve by
cardinality. -/
def adHocContinuation (q : AdHocQ) (candidates : List Match) : FindResponse :=
  let cs := candidates.filter (fun m => adHocFilter q m.2)
  match cs with
  | [] => FindResponse.none
  | [m] => .found m
  | ms => .ambiguous ms

/-- Split candidate key pairs into cached matches and keys to fetch, in
encounter order. -/
def splitCands (cache : List (String × NoteRecord)) (keys : List (Nat × Nat)) :
    List Match × List String :=
  keys.foldl
    (fun acc e =>
      match alGet cache (enkey e.1 e.2) with
      | some note => (acc.1 ++ [(e.1, note)], acc.2)
      | Option.none => (acc.1, acc.2 ++ [enkey e.1 e.2]))
    ([], [])

/-- The candidate gathering of the exact-strictness ad hoc branch: direct
index lookups, `Option.none` when a listed project has no phrase index
(the source's non-null assertion would throw). -/
def exactGather (idx : Index) (normalized : List (Nat × String)) :
    Option (List (Nat × Nat)) :=
  normalized.foldlM
    (fun acc e =>
      match alGet idx.projectIndices e.1 with
      | Option.none => Option.none
      | some pIdx =>
        match alGet pIdx e.2 with
        | some i => some (acc ++ [(e.1, i)])
        | Option.none => some acc)
    []

/-- One project's scan in the non-exact ad hoc branch: every index entry,
filtered by the phrase when one was given and non-empty (substring
containment for `"substring"`, subsequence for `"fuzzy"`/default). -/
def scanProject (q : AdHocQ) (normalized : List (Nat × String)) (pk : Nat)
    (pIdx : List (String × Nat)) : List (Nat × Nat) :=
  pIdx.foldl
    (fun acc e =>
      let keep : Bool :=
        match q.phrase with
        | Option.none => true
        | some ph =>
          if ph = "" then true
          else if q.strictness = some Strictness.substring then
            match alGet normalized pk with
            | some norm => if norm = "" then true else hasSubL norm.data e.1.data
            | Option.none => true
          else
            match alGet normalized pk with
            | some norm => subseqL norm.data e.1.data
            | Option.none => false
      if keep then acc ++ [(pk, e.2)] else acc)
    []

/-- The ad hoc shape of `find`: returns the response and the keys read
from the store.  `Option.none` models a thrown exception.  No fetched
note is ever written to the cache on this path. -/
def Index.findAdHoc (idx : Index) (store : Store) (q : AdHocQ) :
    Option (FindResponse × List String) :=
  if arrayTruthy (adHocPresentKeys q) then
    let projectList := match q.project with | Option.none => idx.allProjects | some ps => ps
    (match q.phrase with
     | Option.none => some []
     | some ph => projectList.mapM (fun pk => (idx.normalize ph (.pk pk)).map (fun k => (pk, k))))
      |>.bind (fun normalized =>
        (if q.phrase.isSome && q.strictness = some Strictness.exact then
          exactGather idx normalized
        else
          some (projectList.foldl
            (fun acc pk =>
              acc ++ scanProject q normalized pk ((alGet idx.projectIndices pk).getD []))
            []))
        |>.map (fun candKeys =>
          let split := splitCands idx.cache candKeys
          let cands := split.1
          let toLookUp := split.2
          if toLookUp.length = 0 then (adHocContinuation q cands, ([] : List String))
          else
            let fetched := toLookUp.filterMap
              (fun k => (storeNote store k).map (fun n => (parsePk k, n)))
            (adHocContinuation q (cands ++ fetched), toLookUp)))
  else
    some (FindResponse.none, [])

/-- The cardinality rule of the lookup shape: more than one match is
ambiguous, otherwise the single match is `found` (an empty list cannot
occur when index and store are consistent; the source would resolve
`found` with an undefined match there, modelled as `none`). -/
def lookupCard (rv : List Match) : FindResponse :=
  if rv.length > 1 then .ambiguous rv
  else match rv with
    | [m] => .found m
    | _ => FindResponse.none

/-- The tail of the lookup branch, once the matching `(pk, notePk)` pairs
have been collected.  Cache hits are gathered in reverse key order (per
the splicing loop); the remaining keys are fetched from the store in one
batch and each fetched record is written to the cache as a deep clone
before the promise resolves. -/
def lookupAssemble (cache0 : List (String × NoteRecord)) (store : Store)
    (keys : List (Nat × Nat)) : FindOut :=
  if keys.length = 0 then
    { resp := FindResponse.none, cache := cache0, reads := [] }
  else
    let hits := keys.reverse.filterMap
      (fun e => (alGet cache0 (enkey e.1 e.2)).map (fun n => (e.1, n)))
    let misses := keys.filter (fun e => (alGet cache0 (enkey e.1 e.2)).isNone)
    if misses.length = 0 then
      { resp := lookupCard hits, cache := cache0, reads := [] }
    else
      let fetched := misses.filterMap
        (fun e => (storeNote store (enkey e.1 e.2)).map (fun n => (e.1, e.2, n)))
      let cache' := (fetched.map (fun t => (enkey t.1 t.2.1, deepClone t.2.2))).foldl
        (fun c e => alSet c e.1 e.2) cache0
      let rv := hits ++ fetched.map (fun t => (t.1, t.2.2))
      { resp := lookupCard rv, cache := cache'
        reads := misses.map (fun e => enkey e.1 e.2) }

/-- The lookup shape of `find`. -/
def Index.findLookup (idx : Index) (store : Store) (phrase : String) (project : Option Nat) :
    Option FindOut :=
  let projects := match project with | Option.none => idx.allProjects | some p => [p]
  (projects.foldlM
    (fun acc pk =>
      (idx.projectIndexPk phrase (.pk pk)).map
        (fun r => match r with | some i => acc ++ [(pk, i)] | Option.none => acc))
    ([] : List (Nat × Nat)))
    |>.map (lookupAssemble idx.cache store)

/-- `Index.find(query)`. -/
def Index.find (idx : Index) (store : Store) : Query → Option FindOut
  | .lookup phrase project => idx.findLookup store phrase project
  | .adHoc q =>
    (idx.findAdHoc store q).map (fun r => { resp := r.1, cache := idx.cache, reads := r.2 })


/-! ## `removeProject`, `clear`, the constructor -/

/-- The successful tail of `removeProject`: apply the deletions and the
`memoranda` writes to the store, delete the project from the registry and
the reverse index, reset `currentProject` if it pointed at the removed
project, and evict the project's cached notes.  (`projectIndices` keeps
its in-memory entry; only the stored blob is removed.) -/
def removeCommit (idx : Index) (store : Store) (info : ProjectInfo)
    (delenda found : List String)
    (adjusted : List (String × NoteRecord × List KeyPair)) : Index × Store :=
  let memoranda0 : List (String × StoreVal) := adjusted.foldl
    (fun acc t =>
      let keepers := t.2.2.filter (fun kv => !(kv.1 = info.pk))
      let note' := { t.2.1 with relations :=
        (if keepers.length ≠ 0 then alSet t.2.1.relations "see also" keepers
         else alDel t.2.1.relations "see also") }
      alSet acc t.1 (.note note'))
    []
  let delenda' := delenda ++ [toString info.pk]
  let store1 := storeRemove store delenda'
  let projects' := alDel idx.projects info.name
  let revIdx' := alDel idx.reverseProjectIndex info.pk
  let cur' := if idx.currentProject = info.pk then 0 else idx.currentProject
  let memoranda1 :=
    if idx.currentProject = info.pk then alSet memoranda0 "currentProject" (.num 0)
    else memoranda0
  let memoranda2 := alSet memoranda1 "projects" (.projects projects')
  let store2 := storeSet store1 memoranda2
  let cache' := found.foldl (fun c k => alDel c k) idx.cache
  ({ idx with
      projects := projects'
      currentProject := cur'
      reverseProjectIndex := revIdx'
      cache := cache' },
   store2)

/-- The body of `removeProject` once the project is resolved and its
phrase index found.  Store operations succeed, so the only failure left
is the `TypeError` thrown in `continuation2` when an adjustable note has
no `"see also"` key (`note.relations["see also"]` is `undefined` and
`.filter` is called on it). -/
def removeGather (idx : Index) (store : Store) (info : ProjectInfo)
    (pIdx : List (String × Nat)) :
    Option (List (String × NoteRecord × List KeyPair)) × List String × List String :=
  -- partition the project's notes into cached (`found`) and `missing`
  let start : List String × List NoteRecord × List String × List String := ([], [], [], [])
  let parts := pIdx.foldl
    (fun acc e =>
      let key := enkey info.pk e.2
      match alGet idx.cache key with
      | some note => (acc.1 ++ [key], acc.2.1 ++ [note], acc.2.2.1, acc.2.2.2 ++ [key])
      | Option.none => (acc.1 ++ [key], acc.2.1, acc.2.2.1 ++ [key], acc.2.2.2))
    start
  let delenda := parts.1
  let missing := parts.2.2.1
  let found := parts.2.2.2
  let notes := parts.2.1 ++ missing.filterMap (storeNote store)
  -- continuation1: notes elsewhere holding "see also" relations into the
  -- removed project
  let wanted := notes.foldl
    (fun acc note =>
      acc ++ (((alGet note.relations "see also").getD []).filter
        (fun kv => !(kv.1 = info.pk))).map (fun kv => enkey kv.1 kv.2))
    []
  let cacheHits := wanted.filterMap (fun k => (alGet idx.cache k).map (fun n => (k, n)))
  let adjustanda := wanted.filter (fun k => (alGet idx.cache k).isNone)
  let adjustables := cacheHits ++ adjustanda.filterMap
    (fun k => (storeNote store k).map (fun n => (k, n)))
  (adjustables.mapM
      (fun e => (alGet e.2.relations "see also").map (fun ps => (e.1, e.2, ps))),
   delenda, found)

def Index.removeProjectResolved (idx : Index) (store : Store) (info : ProjectInfo)
    (pIdx : List (String × Nat)) : Except String (Index × Store) :=
  let g := removeGather idx store info pIdx
  -- continuation2
  match g.1 with
  | Option.none => .error "thrown: TypeError"
  | some adjusted => .ok (removeCommit idx store info g.2.1 g.2.2 adjusted)

/-- `Index.removeProject(project)`.  The in-memory `projectIndices` entry
of the removed project is never deleted (only its stored blob is). -/
def Index.removeProject (idx : Index) (store : Store) (project : PIdent) :
    Except String (Index × Store) :=
  match (idx.findProj project).2 with
  | Option.none => .error "thrown: TypeError"
  | some info =>
    match alGet idx.projectIndices info.pk with
    | Option.none => .error "thrown: TypeError"
    | some pIdx => idx.removeProjectResolved store info pIdx

/-- `Index.clear()`: wipe storage and the in-memory state, then restore
the default project in `projects` and `projectIndices` (but not in
`reverseProjectIndex`, which stays empty; `currentProject` is left
untouched). -/
def Index.clear (idx : Index) : Index × Store :=
  ({ projects := [("", makeDefaultProject)]
     currentProject := idx.currentProject
     projectIndices := [(0, [])]
     tags := []
     reverseProjectIndex := []
     cache := [] },
   [("projects", .projects [("", makeDefaultProject)])])

/-- The `Index` constructor: bootstrap the default project when the
project-index map is empty, and derive `reverseProjectIndex` from the
project registry.  The second component is the store after the
constructor's bootstrap write. -/
def Index.init (store : Store) (projects : List (String × ProjectInfo))
    (currentProject : Nat) (projectIndices : List (Nat × List (String × Nat)))
    (tags : List String) : Index × Store :=
  let boot := projectIndices.length = 0
  let projects' := if boot then alSet projects "" makeDefaultProject else projects
  let projectIndices' := if boot then alSet projectIndices 0 [] else projectIndices
  let store' := if boot then storeSet store [("projects", .projects projects')] else store
  ({ projects := projects'
     currentProject := currentProject
     projectIndices := projectIndices'
     tags := tags
     reverseProjectIndex := projects'.foldl (fun m e => alSet m e.2.pk e.1) []
     cache := [] },
   store')


/-! ## Concrete fixtures -/

/-- Note "b" in the default project, with an empty `"see also"` list. -/
def noteB0 : NoteRecord :=
  { starred := false, tags := [], citations := [], relations := [("see also", [])] }

/-- Note "a", carrying an outgoing `"see also"` relation to note `(0,0)`. -/
def noteA0 : NoteRecord :=
  { starred := false, tags := [], citations := [], relations := [("see also", [(0, 0)])] }

/-- A note with no relations. -/
def noteU : NoteRecord :=
  { starred := false, tags := [], citations := [], relations := [] }

/-- State with note "b" stored and cached in the default project. -/
def idxRel : Index :=
  { projects := [("", makeDefaultProject)]
    currentProject := 0
    projectIndices := [(0, [("b", 0)])]
    tags := []
    reverseProjectIndex := [(0, "")]
    cache := [("0:0", noteB0)] }

def storeRel : Store := [("0", .idx [("b", 0)]), ("0:0", .note noteB0)]

/-- A project declaring the asymmetric relation pair ("part", "whole"). -/
def partWholeProj : ProjectInfo :=
  { pk := 2, name := "pw", description := "", normalizer := "", relations := [("part", "whole")] }

/-- The "German" project of the C7 scenario. -/
def germanProj : ProjectInfo :=
  { pk := 1, name := "German", description := "", normalizer := "German"
    relations := [("see also", "see also")] }

/-- State with the default project and the "German" project, both empty. -/
def idxGer : Index :=
  { projects := [("", makeDefaultProject), ("German", germanProj)]
    currentProject := 0
    projectIndices := [(0, []), (1, [])]
    tags := []
    reverseProjectIndex := [(0, ""), (1, "German")]
    cache := [] }

/-- State with note "b" stored but *not* cached. -/
def idxSearch : Index :=
  { projects := [("", makeDefaultProject)]
    currentProject := 0
    projectIndices := [(0, [("b", 0)])]
    tags := []
    reverseProjectIndex := [(0, "")]
    cache := [] }

def storeSearch : Store := [("0", .idx [("b", 0)]), ("0:0", .note noteB0)]

/-- An ad hoc query with no recognized field. -/
def emptyAdHoc : AdHocQ :=
  ⟨Option.none, Option.none, Option.none, Option.none, Option.none, Option.none,
   Option.none, Option.none, Option.none⟩

/-- An ad hoc query filtering only on `starred: false`. -/
def qStarredOnly : AdHocQ :=
  ⟨Option.none, Option.none, Option.none, some false, Option.none, Option.none,
   Option.none, Option.none, Option.none⟩

/-- A second project alongside the default one. -/
def projFive : ProjectInfo :=
  { pk := 5, name := "P", description := "", normalizer := ""
    relations := [("see also", "see also")] }

/-- State with the default project and project "P" (pk 5). -/
def idxTwo : Index :=
  { projects := [("", makeDefaultProject), ("P", projFive)]
    currentProject := 0
    projectIndices := [(0, []), (5, [])]
    tags := []
    reverseProjectIndex := [(0, ""), (5, "P")]
    cache := [] }

/-! ## Claim theorems, part 1 -/

/-- Claim C2 (code_bug): `reverseRelation` is specified to return the
paired relation type whenever the relation appears in a declared pair —
but the source iterates the pair array with `for...in`, comparing the
relation against characters of the index strings, so it returns `null`
even for declared relations: on the default project's self-paired
`"see also"` and on both members of a declared ("part", "whole") pair. -/
theorem aman_c2_code_eval :
    reverseRelationJS makeDefaultProject "see also" = JSStr.null ∧
    reverseRelationJS partWholeProj "part" = JSStr.null ∧
    reverseRelationJS partWholeProj "whole" = JSStr.null := by decide

/-- Claim C1 (code_bug): with `reverse("see also") = "see also"` declared
and target note B (key `0:0`) cached, adding note A with an outgoing
`"see also"` relation to B is specified to give B the key of A under
`"see also"`.  Evaluating `add` at this input shows B's relations are
unchanged (still the empty list), in cache and in store: the mirror step
compares every relation key of B against the `''` produced by the broken
`reverseRelation`. -/
theorem aman_c1_code_eval :
    (idxRel.add storeRel "a" 0 noteA0).map
        (fun r => (alGet r.1.cache "0:0", storeNote r.2 "0:0")) =
      some (some noteB0, some noteB0) ∧
    alGet noteB0.relations "see also" = some [] := by
  constructor
  · rfl
  · rfl

/-- Claim C3 (code_bug): after the `add` of the C1 scenario,
`deleteRelation({phrase: "a", project, relation: "see also", pair: (0,0)})`
is specified to restore both notes' relation maps; instead the call
rejects with the reversed-relation error (because `reverseRelation`
returns `null` on every declared relation), so the relation maps are not
restored. -/
theorem aman_c3_code_eval :
    (idxRel.add storeRel "a" 0 noteA0).map
        (fun r => r.1.deleteRelation r.2 "a" (.info makeDefaultProject) "see also" (0, 0)) =
      some (.error "could not find the reversed relation for see also in ") := by rfl

/-- Claim C4 counterexample: from the freshly constructed state (which
holds only the default project, pk 0), `removeProject` applied to the
identifier `pk 0` succeeds and leaves the project registry empty — the
pk-0 project *is* deleted, contradicting the claim that no operation
deletes it. -/
theorem aman_c4_counterexample :
    Except.map (fun r => r.1.projects)
        ((Index.init [] [] 0 [] []).1.removeProject (Index.init [] [] 0 [] []).2 (.pk 0)) =
      .ok [] := by rfl

/-- Claim C5 counterexample: the ad hoc query `{starred: false}` against
a state whose only note is stored but not cached reads key `"0:0"` from
the store and resolves `found` — yet the resolved cache is still empty:
the ad hoc branch never inserts fetched records into the cache. -/
theorem aman_c5_counterexample :
    (idxSearch.find storeSearch (.adHoc qStarredOnly)).map
        (fun o => (o.resp, o.cache, o.reads)) =
      some (.found (0, noteB0), ([] : List (String × NoteRecord)), ["0:0"]) := by rfl

/-- Claim C6 counterexample: the ad hoc query with no recognized field
does resolve to `{state: "none"}`, but only after scanning the phrase
index and fetching the uncached candidate `"0:0"` from the store — not
by the specified short-circuit (the `Object.keys(...)` test is an array
and therefore always truthy). -/
theorem aman_c6_counterexample :
    (idxSearch.find storeSearch (.adHoc emptyAdHoc)).map (fun o => (o.resp, o.reads)) =
      some (FindResponse.none, ["0:0"]) := by rfl

/-- Claim C7 counterexample: adding the phrase "Über" to the project with
the "German" normalizer stores it under the key "ueber", not "uber" (the
German normalizer rewrites ü to ue before stripping diacritics). -/
theorem aman_c7_counterexample :
    (idxGer.add [] "Über" 1 noteU).map
        (fun r =>
          (alGet ((alGet r.1.projectIndices 1).getD []) "uber",
           alGet ((alGet r.1.projectIndices 1).getD []) "ueber")) =
      some (Option.none, some 0) := by rfl

/-- Claim C7 (amended): adding "Über" to the "German"-normalized project
stores it in the project's phrase index under the normalized key "ueber",
and an exact lookup of "über" in that project returns that same note. -/
theorem aman_c7_amended :
    (idxGer.add [] "Über" 1 noteU).map
        (fun r =>
          (alGet ((alGet r.1.projectIndices 1).getD []) "ueber",
           (r.1.find r.2 (.lookup "über" (some 1))).map (fun o => o.resp))) =
      some (some 0, some (.found (1, noteU))) := by rfl

/-- Claim C8 counterexample: `normalize` is not idempotent on the default
project: the phrase "! a" normalizes to " a" (the removal of "!" exposes
a leading space after trimming has already happened), which normalizes
again to "a". -/
theorem aman_c8_counterexample :
    ((idxGer.normalize "! a" (.info makeDefaultProject)).bind
        (fun q => idxGer.normalize q (.info makeDefaultProject))) ≠
      idxGer.normalize "! a" (.info makeDefaultProject) := by decide

/-- Claim C9 (confirmed): whenever `getBytesInUse` reports `b` bytes with
no store error, `memfree()` resolves to exactly `5242880 - b` — in
particular for `b = 0` and at the budget boundary `b = 5242880`. -/
theorem aman_c9_memfree (b : Nat) :
    Index.memfree b Option.none = .ok (5242880 - (b : Int)) := rfl


/-- Claim C10 (confirmed): `normalize(phrase, project)` is total exactly
on the registered normalizer keys.  For a project record whose
`normalizer` field is `""` or `"German"` it produces a string; for any
other value the registry lookup is `undefined` and reading `.code` off it
throws (modelled by `Option.none`) — there is no fallback to the default
normalizer. -/
theorem aman_c10_normalize_totality (idx : Index) (phrase : String) (proj : ProjectInfo) :
    (idx.normalize phrase (.info proj)).isSome ↔
      (proj.normalizer = "" ∨ proj.normalizer = "German") := by
  unfold Index.normalize normalizersGet jsOrStr
  by_cases h1 : proj.normalizer = ""
  · simp [h1]
  · by_cases h2 : proj.normalizer = "German"
    · simp [h1, h2]
    · simp [h1, h2]

/-- Every candidate list filtered by the empty ad hoc query is empty:
with `starred` unset the filter callback returns `undefined`. -/
theorem adHocFilter_empty (l : List Match) :
    l.filter (fun m => adHocFilter emptyAdHoc m.2) = [] := by
  induction l with
  | nil => rfl
  | cons m rest ih =>
    simp only [List.filter_cons]
    rw [if_neg (by simp [adHocFilter, emptyAdHoc])]
    exact ih

/-- The continuation of the empty ad hoc query always resolves
`{state: "none"}`. -/
theorem adHocContinuation_empty (l : List Match) :
    adHocContinuation emptyAdHoc l = FindResponse.none := by
  unfold adHocContinuation
  rw [adHocFilter_empty]

/-- Claim C6 (amended): in every state, an ad hoc query whose only
recognized field is `type` resolves to `{state: "none"}` — but by
gathering candidates from the phrase indices (fetching uncached ones from
the store) and then dropping them all in the filter, whose callback
returns `undefined` when `starred` is unset; the specified short-circuit
on an empty filter set is dead code because `Object.keys(requirements)`
is an array, truthy even when empty. -/
theorem aman_c6_amended (idx : Index) (store : Store) :
    ∃ out, idx.find store (.adHoc emptyAdHoc) = some out ∧ out.resp = FindResponse.none := by
  unfold Index.find Index.findAdHoc
  simp only [arrayTruthy, if_true]
  have hph : emptyAdHoc.phrase = Option.none := rfl
  rw [hph]
  simp only [Option.isSome_none, Bool.false_and, Bool.false_eq_true, if_false, Option.some_bind,
    Option.map_some, if_pos rfl]
  set keys := (match emptyAdHoc.project with
      | Option.none => idx.allProjects
      | some ps => ps).foldl
      (fun acc pk => acc ++ scanProject emptyAdHoc [] pk ((alGet idx.projectIndices pk).getD []))
      [] with hkeys
  by_cases h : (splitCands idx.cache keys).2.length = 0
  · exact ⟨_, rfl, by simp only [h, if_pos rfl]; exact adHocContinuation_empty _⟩
  · exact ⟨_, rfl, by simp only [h, if_neg h]; exact adHocContinuation_empty _⟩


theorem alSet_mem_self {κ α : Type} [DecidableEq κ] (l : List (κ × α)) (k : κ) (v : α) :
    (k, v) ∈ alSet l k v := by
  induction l with
  | nil => simp [alSet]
  | cons e rest ih =>
    obtain ⟨k', v'⟩ := e
    by_cases h : k = k'
    · simp [alSet, h]
    · simp only [alSet, if_neg h]
      exact List.mem_cons_of_mem _ ih

/-- The registry holds an entry under the empty name whose pk is 0. -/
def hasProjectZero (l : List (String × ProjectInfo)) : Bool :=
  l.any (fun e => e.1 == "" && e.2.pk == 0)

theorem hasProjectZero_of_mem (l : List (String × ProjectInfo)) (p : ProjectInfo)
    (hmem : ("", p) ∈ l) (hpk : p.pk = 0) : hasProjectZero l = true := by
  unfold hasProjectZero
  rw [List.any_eq_true]
  exact ⟨("", p), hmem, by simp [hpk]⟩

theorem hasProjectZero_mem (l : List (String × ProjectInfo))
    (h : hasProjectZero l = true) : ∃ p, ("", p) ∈ l ∧ p.pk = 0 := by
  unfold hasProjectZero at h
  rw [List.any_eq_true] at h
  obtain ⟨e, hmem, he⟩ := h
  simp only [Bool.and_eq_true, beq_iff_eq] at he
  obtain ⟨h1, h2⟩ := he
  exact ⟨e.2, by rw [← h1]; exact hmem, h2⟩

/-- A successful `removeProjectResolved` deletes exactly the resolved
project's name from the registry. -/
theorem removeCommit_projects (idx : Index) (store : Store) (info : ProjectInfo)
    (delenda found : List String) (adjusted : List (String × NoteRecord × List KeyPair)) :
    (removeCommit idx store info delenda found adjusted).1.projects =
      alDel idx.projects info.name := rfl

theorem removeProjectResolved_projects (idx : Index) (store : Store) (info : ProjectInfo)
    (pIdx : List (String × Nat)) (r : Index × Store)
    (h : idx.removeProjectResolved store info pIdx = .ok r) :
    r.1.projects = alDel idx.projects info.name := by
  unfold Index.removeProjectResolved at h
  dsimp only at h
  split at h
  · exact absurd h (by simp)
  · rw [Except.ok.injEq] at h
    subst h
    exact removeCommit_projects ..

theorem removeProject_ok_projects (idx : Index) (st : Store) (ident : PIdent)
    (r : Index × Store) (h : idx.removeProject st ident = .ok r) :
    ∃ info, (idx.findProj ident).2 = some info ∧
      r.1.projects = alDel idx.projects info.name := by
  unfold Index.removeProject at h
  split at h
  · exact absurd h (by simp)
  · rename_i info heq
    split at h
    · exact absurd h (by simp)
    · exact ⟨info, heq, removeProjectResolved_projects _ _ _ _ _ h⟩

/-- Claim C4 (amended): the pk-0 project (registered under the empty
name) exists after a bootstrap construction (empty project-index map) and
after `clear`, and every successful `removeProject` whose identifier
resolves to a project with a non-empty name preserves it.  (As the
counterexample shows, `removeProject` of an identifier resolving to the
default project itself — pk 0, the empty name, or any unresolvable
identifier, which falls back to it — does delete it.) -/
theorem aman_c4_amended (store st : Store) (ps : List (String × ProjectInfo)) (cp : Nat)
    (ts : List String) (idx : Index) (ident : PIdent)
    (hzero : hasProjectZero idx.projects = true)
    (hres : ((idx.findProj ident).2.all (fun info => !(info.name == ""))) = true) :
    hasProjectZero (Index.init store ps cp [] ts).1.projects = true ∧
    hasProjectZero (Index.clear idx).1.projects = true ∧
    (match idx.removeProject st ident with
     | .ok r => hasProjectZero r.1.projects = true
     | .error e => True) := by
  refine ⟨?_, ?_, ?_⟩
  · show hasProjectZero (alSet ps "" makeDefaultProject) = true
    exact hasProjectZero_of_mem _ makeDefaultProject (alSet_mem_self _ _ _) rfl
  · exact hasProjectZero_of_mem _ makeDefaultProject (by simp [Index.clear]) rfl
  · cases hrm : idx.removeProject st ident with
    | error e => trivial
    | ok r =>
      obtain ⟨info, hfp, hproj⟩ := removeProject_ok_projects idx st ident r hrm
      obtain ⟨p, hmem, hpk⟩ := hasProjectZero_mem _ hzero
      have hname : info.name ≠ "" := by
        rw [hfp] at hres
        simp only [Option.all_some, Bool.not_eq_true', beq_eq_false_iff_ne, ne_eq] at hres
        exact hres
      refine hasProjectZero_of_mem _ p ?_ hpk
      rw [hproj]
      exact alDel_mem _ _ _ _ hmem (fun hk => hname hk.symm)

/-- Witness for C4 (amended): concrete instantiation at the two-project
state, removing project "P" (pk 5). -/
theorem aman_c4_amended_witness :
    hasProjectZero (Index.init [] [] 0 [] []).1.projects = true ∧
    hasProjectZero (Index.clear idxTwo).1.projects = true ∧
    (match idxTwo.removeProject [] (.pk 5) with
     | .ok r => hasProjectZero r.1.projects = true
     | .error e => True) :=
  aman_c4_amended [] [] [] 0 [] idxTwo (.pk 5) (by decide) (by decide)


theorem alGet_foldl_notmem {κ α : Type} [DecidableEq κ] (l : List (κ × α))
    (c0 : List (κ × α)) (k : κ) (h : ∀ e ∈ l, e.1 ≠ k) :
    alGet (l.foldl (fun c e => alSet c e.1 e.2) c0) k = alGet c0 k := by
  induction l generalizing c0 with
  | nil => rfl
  | cons e rest ih =>
    rw [List.foldl_cons, ih _ (fun e' he' => h e' (List.mem_cons_of_mem _ he'))]
    exact alGet_alSet_ne _ _ _ _ (fun hk => h e (List.mem_cons_self _ _) hk.symm)

theorem alGet_foldl_mem {κ α : Type} [DecidableEq κ] (l : List (κ × α))
    (c0 : List (κ × α)) (k : κ) (v : α) (hmem : (k, v) ∈ l)
    (huniq : ∀ v', (k, v') ∈ l → v' = v) :
    alGet (l.foldl (fun c e => alSet c e.1 e.2) c0) k = some v := by
  induction l generalizing c0 with
  | nil => simp at hmem
  | cons e rest ih =>
    rw [List.foldl_cons]
    by_cases hk : ∃ v', (k, v') ∈ rest
    · obtain ⟨v', hv'⟩ := hk
      have hv'v : v' = v := huniq v' (List.mem_cons_of_mem _ hv')
      subst hv'v
      exact ih _ hv' (fun w hw => huniq w (List.mem_cons_of_mem _ hw))
    · have he : e = (k, v) := by
        rcases List.mem_cons.mp hmem with h1 | h2
        · exact h1.symm
        · exact absurd ⟨v, h2⟩ hk
      subst he
      rw [alGet_foldl_notmem _ _ _ (fun e' he' hk' => hk ⟨e'.2, by rw [← hk']; exact he'⟩)]
      exact alGet_alSet_self _ _ _

/-- Every store read performed by `lookupAssemble` lands in the resolved
cache as a deep clone. -/
theorem lookupAssemble_caches (cache0 : List (String × NoteRecord)) (store : Store)
    (keys : List (Nat × Nat)) (k : String) (n : NoteRecord)
    (hread : k ∈ (lookupAssemble cache0 store keys).reads)
    (hstore : storeNote store k = some n) :
    alGet (lookupAssemble cache0 store keys).cache k = some (deepClone n) := by
  unfold lookupAssemble at hread ⊢
  by_cases h0 : keys.length = 0
  · rw [if_pos h0] at hread
    simp at hread
  · rw [if_neg h0] at hread ⊢
    dsimp only at hread ⊢
    by_cases h1 : (keys.filter (fun e => (alGet cache0 (enkey e.1 e.2)).isNone)).length = 0
    · rw [if_pos h1] at hread
      simp at hread
    · rw [if_neg h1] at hread ⊢
      dsimp only at hread ⊢
      rw [List.mem_map] at hread
      obtain ⟨e, hemem, hek⟩ := hread
      have hfetch : (e.1, e.2, n) ∈ (keys.filter
          (fun e => (alGet cache0 (enkey e.1 e.2)).isNone)).filterMap
            (fun e => (storeNote store (enkey e.1 e.2)).map (fun n => (e.1, e.2, n))) := by
        rw [List.mem_filterMap]
        exact ⟨e, hemem, by rw [hek, hstore]; rfl⟩
      refine alGet_foldl_mem _ _ _ _ ?_ ?_
      · rw [List.mem_map]
        exact ⟨(e.1, e.2, n), hfetch, by rw [← hek]⟩
      · intro v' hv'
        rw [List.mem_map] at hv'
        obtain ⟨t, htmem, hteq⟩ := hv'
        rw [List.mem_filterMap] at htmem
        obtain ⟨e', he'mem, he'eq⟩ := htmem
        rw [Option.map_eq_some'] at he'eq
        obtain ⟨n', hn', ht⟩ := he'eq
        subst ht
        rw [Prod.mk.injEq] at hteq
        obtain ⟨hk1, hk2⟩ := hteq
        dsimp only at hk1 hk2
        rw [hk1] at hn'
        rw [hstore] at hn'
        rw [← hk2, Option.some_inj.mp hn'.symm]

/-- Claim C5 (amended): during a lookup query, every note successfully
read from the backing store is inserted into the cache, as a deep clone,
before the query's promise resolves; ad hoc queries, by contrast, never
write fetched notes to the cache (the cache they resolve with is exactly
the cache they started from). -/
theorem aman_c5_amended (idx : Index) (store : Store) :
    (∀ phrase project out, idx.find store (.lookup phrase project) = some out →
      ∀ k n, k ∈ out.reads → storeNote store k = some n →
        alGet out.cache k = some (deepClone n)) ∧
    (∀ q out, idx.find store (.adHoc q) = some out → out.cache = idx.cache) := by
  constructor
  · intro phrase project out hfind k n hk hn
    unfold Index.find Index.findLookup at hfind
    rw [Option.map_eq_some'] at hfind
    obtain ⟨keys, hkeys, hout⟩ := hfind
    rw [← hout]
    rw [← hout] at hk
    exact lookupAssemble_caches _ _ _ _ _ hk hn
  · intro q out hfind
    unfold Index.find at hfind
    rw [Option.map_eq_some'] at hfind
    obtain ⟨r, hr, hout⟩ := hfind
    rw [← hout]

/-- Witness for C5 (amended): at the concrete search state, the lookup of
"b" reads `"0:0"` from the store and caches it, and the `{starred:false}`
ad hoc query leaves the (empty) cache unchanged. -/
theorem aman_c5_amended_witness :
    alGet
        ({ resp := .found (0, noteB0), cache := [("0:0", noteB0)],
           reads := ["0:0"] } : FindOut).cache "0:0" = some (deepClone noteB0) ∧
    ({ resp := .found (0, noteB0), cache := ([] : List (String × NoteRecord)),
       reads := ["0:0"] } : FindOut).cache = idxSearch.cache :=
  ⟨(aman_c5_amended idxSearch storeSearch).1 "b" Option.none
      { resp := .found (0, noteB0), cache := [("0:0", noteB0)], reads := ["0:0"] }
      (by rfl) "0:0" noteB0 (by decide) (by rfl),
   (aman_c5_amended idxSearch storeSearch).2 qStarredOnly
      { resp := .found (0, noteB0), cache := [], reads := ["0:0"] } (by rfl)⟩


/-! ## Idempotence of the normalizers (claim C8)

The character-removal step can expose marginal spaces ("! a" → " a") and
double spaces ("a ! b" → "a  b") that a second pass then trims or
collapses, so `normalize` is *not* idempotent in general.  It is
idempotent on every phrase whose normalized form has no marginal space
and no two adjacent spaces; the development below proves this for both
registered normalizers. -/

/-- The string neither starts nor ends with a space. -/
def noEdgeSpace (l : List Char) : Bool :=
  !(l.head? = some ' ') && !(l.getLast? = some ' ')

/-- No two adjacent spaces. -/
def noDoubleSpace : List Char → Bool
  | c :: d :: rest => !(c = ' ' && d = ' ') && noDoubleSpace (d :: rest)
  | _ => true

/-- Every whitespace character is a plain space. -/
def allWsSpace (l : List Char) : Bool := l.all (fun c => !isSpaceChar c || c = ' ')

/-- No two adjacent whitespace characters. -/
def noAdjWs : List Char → Bool
  | c :: d :: rest => !(isSpaceChar c && isSpaceChar d) && noAdjWs (d :: rest)
  | _ => true

/-! ### Finite facts about the character tables -/

theorem nfdElem_inert : ∀ p ∈ nfdTable, ∀ c ∈ p.2, tlook nfdTable c = Option.none := by
  decide

theorem nfdElem_gsub : ∀ p ∈ nfdTable, ∀ c ∈ p.2, gsub c = [c] := by decide

theorem nfdElem_lower : ∀ p ∈ nfdTable, uToLower p.1 = p.1 → ∀ c ∈ p.2, uToLower c = c := by
  decide

theorem lowerTab_idem : ∀ p ∈ lowerTable, tlook lowerTable p.2 = Option.none := by decide

theorem lowerTab_word : ∀ p ∈ lowerTable, isWordChar p.2 = true := by decide

theorem lowerTab_mark : ∀ p ∈ lowerTable, isMark p.2 = false := by decide

theorem lowerTab_nfd :
    ∀ p ∈ lowerTable, ¬(tlook nfdTable p.1 = Option.none) ∨ tlook nfdTable p.2 = Option.none := by
  decide

/-! ### Character-level lemmas -/

/-- `uToLower` is idempotent. -/
theorem uToLower_idem (c : Char) : uToLower (uToLower c) = uToLower c := by
  unfold uToLower
  cases h : tlook lowerTable c with
  | none =>
    simp only [Option.getD_none]
    rw [h]
    rfl
  | some l =>
    have h2 := lowerTab_idem _ (tlook_mem _ _ _ h)
    simp only [Option.getD_some]
    rw [h2]
    rfl

/-- Lower-casing an NFD-inert non-mark character yields an NFD-inert
non-mark character. -/
theorem uToLower_inert (c : Char) (hn : tlook nfdTable c = Option.none)
    (hm : isMark c = false) :
    tlook nfdTable (uToLower c) = Option.none ∧ isMark (uToLower c) = false := by
  unfold uToLower
  cases h : tlook lowerTable c with
  | none => exact ⟨hn, hm⟩
  | some l =>
    have hmem := tlook_mem _ _ _ h
    refine ⟨?_, lowerTab_mark _ hmem⟩
    rcases lowerTab_nfd _ hmem with h1 | h2
    · exact absurd hn h1
    · exact h2

/-- Lower-casing preserves word characters. -/
theorem uToLower_word (c : Char) (hw : isWordChar c = true) :
    isWordChar (uToLower c) = true := by
  unfold uToLower
  cases h : tlook lowerTable c with
  | none => exact hw
  | some l => exact lowerTab_word _ (tlook_mem _ _ _ h)

/-- A word character that is whitespace is the plain space. -/
theorem wordChar_space (c : Char) (hw : isWordChar c = true) (hs : isSpaceChar c = true) :
    c = ' ' := by
  have hmem : c ∈ [' ', '\t', '\n', '\r', '\x0b', '\x0c'] := by
    have := of_decide_eq_true hs
    exact this
  fin_cases hmem
  · rfl
  all_goals exact absurd hw (by decide)

/-- The decomposition elements of `gsub`: either one of the lowercase
ASCII letters of a substitution image, or the character itself, in which
case `gsub` leaves it alone. -/
theorem gsub_elem (c d : Char) (h : d ∈ gsub c) :
    d ∈ ['s', 'a', 'e', 'o', 'u'] ∨ (d = c ∧ gsub c = [c]) := by
  unfold gsub at h
  split_ifs at h with h1 h2 h3 h4
  · left; fin_cases h <;> decide
  · left; fin_cases h <;> decide
  · left; fin_cases h <;> decide
  · left; fin_cases h <;> decide
  · refine Or.inr ⟨by simpa using h, ?_⟩
    unfold gsub
    rw [if_neg h1, if_neg h2, if_neg h3, if_neg h4]

/-! ### Membership propagation through the normalizer pipelines -/

/-- Characters surviving `stripDiacrics` are NFD-inert non-marks. -/
theorem stripDiacrics_mem (l : List Char) (c : Char) (h : c ∈ stripDiacrics l) :
    tlook nfdTable c = Option.none ∧ isMark c = false := by
  unfold stripDiacrics at h
  rw [List.mem_filter] at h
  obtain ⟨hj, hm⟩ := h
  refine ⟨?_, by simpa using hm⟩
  rw [List.mem_flatten] at hj
  obtain ⟨v, hv, hcv⟩ := hj
  rw [List.mem_map] at hv
  obtain ⟨d, hd, hvd⟩ := hv
  subst hvd
  unfold nfd at hcv
  cases hde : tlook nfdTable d with
  | none =>
    rw [hde] at hcv
    simp at hcv
    subst hcv
    exact hde
  | some v =>
    rw [hde] at hcv
    exact nfdElem_inert _ (tlook_mem _ _ _ hde) _ hcv

/-- Every character of the default-normalized form is NFD-inert,
non-mark, lower-fixed and a word character. -/
theorem defaultCodeL_mem (l : List Char) (c : Char) (h : c ∈ defaultCodeL l) :
    tlook nfdTable c = Option.none ∧ isMark c = false ∧ uToLower c = c ∧
      isWordChar c = true := by
  unfold defaultCodeL at h
  rw [List.mem_map] at h
  obtain ⟨d, hd, hdc⟩ := h
  rw [List.mem_filter] at hd
  obtain ⟨hds, hdw⟩ := hd
  obtain ⟨hdn, hdm⟩ := stripDiacrics_mem _ _ hds
  subst hdc
  obtain ⟨h1, h2⟩ := uToLower_inert d hdn hdm
  exact ⟨h1, h2, uToLower_idem d, uToLower_word d hdw⟩

/-- Every character of the German-normalized form is NFD-inert, non-mark,
lower-fixed, a word character, and fixed by the German substitutions. -/
theorem germanCodeL_mem (l : List Char) (c : Char) (h : c ∈ germanCodeL l) :
    tlook nfdTable c = Option.none ∧ isMark c = false ∧ uToLower c = c ∧
      isWordChar c = true ∧ gsub c = [c] := by
  unfold germanCodeL at h
  rw [List.mem_filter] at h
  obtain ⟨hs, hw⟩ := h
  obtain ⟨hn, hm⟩ := stripDiacrics_mem _ _ hs
  refine ⟨hn, hm, ?_⟩
  -- trace `c` back through the strip to its pre-NFD character `d`
  unfold stripDiacrics at hs
  rw [List.mem_filter] at hs
  obtain ⟨hj, _⟩ := hs
  rw [List.mem_flatten] at hj
  obtain ⟨v, hv, hcv⟩ := hj
  rw [List.mem_map] at hv
  obtain ⟨d, hd, hvd⟩ := hv
  subst hvd
  -- `d` is an element of `gsub e` for a lower-cased `e`
  rw [List.mem_flatten] at hd
  obtain ⟨gv, hgv, hdgv⟩ := hd
  rw [List.mem_map] at hgv
  obtain ⟨e, he, hgve⟩ := hgv
  rw [List.mem_map] at he
  obtain ⟨e0, he0, hee0⟩ := he
  subst hgve
  have helow : uToLower e = e := by rw [← hee0]; exact uToLower_idem e0
  have hdprops : uToLower d = d ∧ gsub d = [d] := by
    rcases gsub_elem e d hdgv with hfive | ⟨hde, hg⟩
    · fin_cases hfive <;> exact ⟨by decide, by decide⟩
    · subst hde
      exact ⟨helow, hg⟩
  -- now pass from `d` to its decomposition element `c`
  unfold nfd at hcv
  cases hde : tlook nfdTable d with
  | none =>
    rw [hde] at hcv
    simp at hcv
    subst hcv
    exact ⟨hdprops.1, hw, hdprops.2⟩
  | some v =>
    rw [hde] at hcv
    have hmem := tlook_mem _ _ _ hde
    exact ⟨nfdElem_lower _ hmem hdprops.1 _ hcv, hw, nfdElem_gsub _ hmem _ hcv⟩


/-! ### Identity of each pipeline stage on an already-normalized string -/

theorem dropWhile_id (p : Char → Bool) (l : List Char)
    (h : ∀ c, l.head? = some c → p c = false) : l.dropWhile p = l := by
  cases l with
  | nil => rfl
  | cons c rest =>
    rw [List.dropWhile_cons, h c rfl]
    simp

theorem jsTrim_id (l : List Char)
    (hh : ∀ c, l.head? = some c → isSpaceChar c = false)
    (hl : ∀ c, l.getLast? = some c → isSpaceChar c = false) : jsTrim l = l := by
  unfold jsTrim
  rw [dropWhile_id _ _ hh]
  rw [dropWhile_id _ _ (fun c hc => hl c (by rwa [← List.head?_reverse]))]
  exact List.reverse_reverse l

theorem noAdjWs_of (l : List Char) (hall : allWsSpace l = true)
    (hdbl : noDoubleSpace l = true) : noAdjWs l = true := by
  induction l with
  | nil => rfl
  | cons c rest ih =>
    cases rest with
    | nil => rfl
    | cons d rest2 =>
      unfold noDoubleSpace at hdbl
      unfold noAdjWs
      rw [Bool.and_eq_true] at hdbl ⊢
      have hall2 : allWsSpace (d :: rest2) = true := by
        unfold allWsSpace at hall ⊢
        rw [List.all_cons, Bool.and_eq_true] at hall
        exact hall.2
      refine ⟨?_, ih hall2 hdbl.2⟩
      unfold allWsSpace at hall
      rw [List.all_cons, Bool.and_eq_true] at hall
      obtain ⟨hc, hall'⟩ := hall
      rw [List.all_cons, Bool.and_eq_true] at hall'
      obtain ⟨hd, _⟩ := hall'
      by_cases hcs : isSpaceChar c = true
      · by_cases hds : isSpaceChar d = true
        · -- both whitespace: both are spaces, contradicting noDoubleSpace
          exfalso
          rw [Bool.or_eq_true] at hc hd
          rcases hc with hc | hc
          · rw [hcs] at hc; exact absurd hc (by decide)
          · rcases hd with hd | hd
            · rw [hds] at hd; exact absurd hd (by decide)
            · have hc' := of_decide_eq_true hc
              have hd' := of_decide_eq_true hd
              rw [hc', hd'] at hdbl
              simp at hdbl
        · simp [hds]
      · simp [hcs]

theorem collapseGo_id (l : List Char) (hall : allWsSpace l = true)
    (hadj : noAdjWs l = true) :
    collapseGo false l = l ∧
      ((∀ c, l.head? = some c → isSpaceChar c = false) → collapseGo true l = l) := by
  induction l with
  | nil => exact ⟨rfl, fun _ => rfl⟩
  | cons c rest ih =>
    have hall2 : allWsSpace rest = true := by
      unfold allWsSpace at hall ⊢
      rw [List.all_cons, Bool.and_eq_true] at hall
      exact hall.2
    have hadj2 : noAdjWs rest = true := by
      cases rest with
      | nil => rfl
      | cons d rest2 =>
        unfold noAdjWs at hadj
        rw [Bool.and_eq_true] at hadj
        exact hadj.2
    obtain ⟨ih1, ih2⟩ := ih hall2 hadj2
    by_cases hcs : isSpaceChar c = true
    · have hcsp : c = ' ' := by
        unfold allWsSpace at hall
        rw [List.all_cons, Bool.and_eq_true] at hall
        rcases Bool.or_eq_true _ _ |>.mp hall.1 with h1 | h1
        · rw [hcs] at h1; exact absurd h1 (by decide)
        · exact of_decide_eq_true h1
      have hresthead : ∀ c', rest.head? = some c' → isSpaceChar c' = false := by
        intro c' hc'
        cases rest with
        | nil => simp at hc'
        | cons d rest2 =>
          simp only [List.head?_cons, Option.some.injEq] at hc'
          subst hc'
          unfold noAdjWs at hadj
          rw [Bool.and_eq_true] at hadj
          have := hadj.1
          rw [hcs] at this
          simpa using this
      constructor
      · unfold collapseGo
        rw [if_pos hcs]
        simp only [Bool.false_eq_true, if_false]
        rw [ih2 hresthead, hcsp]
      · intro hhead
        have hcontra := hhead c rfl
        rw [hcs] at hcontra
        exact absurd hcontra (by decide)
    · have hfalse : isSpaceChar c = false := by
        cases h : isSpaceChar c
        · rfl
        · exact absurd h hcs
      constructor
      · unfold collapseGo
        rw [hfalse]
        simp only [Bool.false_eq_true, if_false, ih1]
      · intro _
        unfold collapseGo
        rw [hfalse]
        simp only [Bool.false_eq_true, if_false, ih1]

theorem stripDiacrics_id (l : List Char)
    (h : ∀ c ∈ l, tlook nfdTable c = Option.none ∧ isMark c = false) :
    stripDiacrics l = l := by
  induction l with
  | nil => rfl
  | cons c rest ih =>
    unfold stripDiacrics at ih ⊢
    rw [List.map_cons, List.flatten_cons, List.filter_append]
    have hc := h c (List.mem_cons_self _ _)
    have hnfd : nfd c = [c] := by unfold nfd; rw [hc.1]; rfl
    rw [hnfd]
    rw [List.filter_cons]
    simp only [hc.2, Bool.not_false, if_pos rfl, List.filter_nil]
    rw [ih (fun c' hc' => h c' (List.mem_cons_of_mem _ hc'))]
    rfl

theorem map_id_of {α : Type} (f : α → α) (l : List α) (h : ∀ c ∈ l, f c = c) :
    l.map f = l := by
  induction l with
  | nil => rfl
  | cons c rest ih =>
    rw [List.map_cons, h c (List.mem_cons_self _ _),
      ih (fun c' hc' => h c' (List.mem_cons_of_mem _ hc'))]

theorem gsub_flatten_id (l : List Char) (h : ∀ c ∈ l, gsub c = [c]) :
    (l.map gsub).flatten = l := by
  induction l with
  | nil => rfl
  | cons c rest ih =>
    rw [List.map_cons, List.flatten_cons, h c (List.mem_cons_self _ _),
      ih (fun c' hc' => h c' (List.mem_cons_of_mem _ hc'))]
    rfl


/-! ### Idempotence on well-spaced normal forms -/

theorem allWsSpace_of_word (q : List Char) (hgood : ∀ c ∈ q, isWordChar c = true) :
    allWsSpace q = true := by
  unfold allWsSpace
  rw [List.all_eq_true]
  intro c hc
  rw [Bool.or_eq_true]
  by_cases hs : isSpaceChar c = true
  · exact Or.inr (by rw [wordChar_space c (hgood c hc) hs]; decide)
  · left
    cases h : isSpaceChar c
    · rfl
    · exact absurd h hs

theorem head_not_space (q : List Char) (hgood : ∀ c ∈ q, isWordChar c = true)
    (hedge : noEdgeSpace q = true) :
    ∀ c, q.head? = some c → isSpaceChar c = false := by
  intro c hc
  unfold noEdgeSpace at hedge
  rw [Bool.and_eq_true] at hedge
  obtain ⟨he1, _⟩ := hedge
  by_cases hs : isSpaceChar c = true
  · exfalso
    have hcmem : c ∈ q := by
      cases q with
      | nil => simp at hc
      | cons a rest =>
        simp only [List.head?_cons, Option.some.injEq] at hc
        subst hc
        exact List.mem_cons_self _ _
    have hsp := wordChar_space c (hgood c hcmem) hs
    subst hsp
    rw [hc] at he1
    simp at he1
  · cases h : isSpaceChar c
    · rfl
    · exact absurd h hs

theorem last_not_space (q : List Char) (hgood : ∀ c ∈ q, isWordChar c = true)
    (hedge : noEdgeSpace q = true) :
    ∀ c, q.getLast? = some c → isSpaceChar c = false := by
  intro c hc
  unfold noEdgeSpace at hedge
  rw [Bool.and_eq_true] at hedge
  obtain ⟨_, he2⟩ := hedge
  by_cases hs : isSpaceChar c = true
  · exfalso
    have hcmem : c ∈ q := by
      obtain ⟨hne, hcl⟩ := List.mem_getLast?_eq_getLast (Option.mem_def.mpr hc)
      rw [hcl]
      exact List.getLast_mem hne
    have hsp := wordChar_space c (hgood c hcmem) hs
    subst hsp
    rw [hc] at he2
    simp at he2
  · cases h : isSpaceChar c
    · rfl
    · exact absurd h hs

/-- The default normalizer is idempotent on every phrase whose normal
form has no marginal space and no two adjacent spaces. -/
theorem defaultCodeL_idem (l : List Char)
    (hedge : noEdgeSpace (defaultCodeL l) = true)
    (hdbl : noDoubleSpace (defaultCodeL l) = true) :
    defaultCodeL (defaultCodeL l) = defaultCodeL l := by
  have hgood := defaultCodeL_mem l
  have hword : ∀ c ∈ defaultCodeL l, isWordChar c = true := fun c hc => (hgood c hc).2.2.2
  have hall := allWsSpace_of_word _ hword
  have hadj := noAdjWs_of _ hall hdbl
  conv =>
    lhs
    rw [defaultCodeL]
  rw [jsTrim_id _ (head_not_space _ hword hedge) (last_not_space _ hword hedge)]
  unfold collapseWS
  rw [(collapseGo_id _ hall hadj).1]
  rw [stripDiacrics_id _ (fun c hc => ⟨(hgood c hc).1, (hgood c hc).2.1⟩)]
  rw [List.filter_eq_self.mpr (fun c hc => hword c hc)]
  exact map_id_of _ _ (fun c hc => (hgood c hc).2.2.1)

/-- The German normalizer is idempotent on every phrase whose normal form
has no marginal space and no two adjacent spaces. -/
theorem germanCodeL_idem (l : List Char)
    (hedge : noEdgeSpace (germanCodeL l) = true)
    (hdbl : noDoubleSpace (germanCodeL l) = true) :
    germanCodeL (germanCodeL l) = germanCodeL l := by
  have hgood := germanCodeL_mem l
  have hword : ∀ c ∈ germanCodeL l, isWordChar c = true := fun c hc => (hgood c hc).2.2.2.1
  have hall := allWsSpace_of_word _ hword
  have hadj := noAdjWs_of _ hall hdbl
  conv =>
    lhs
    rw [germanCodeL]
  rw [jsTrim_id _ (head_not_space _ hword hedge) (last_not_space _ hword hedge)]
  unfold collapseWS
  rw [(collapseGo_id _ hall hadj).1]
  rw [map_id_of _ _ (fun c hc => (hgood c hc).2.2.1)]
  rw [gsub_flatten_id _ (fun c hc => (hgood c hc).2.2.2.2)]
  rw [stripDiacrics_id _ (fun c hc => ⟨(hgood c hc).1, (hgood c hc).2.1⟩)]
  exact List.filter_eq_self.mpr (fun c hc => hword c hc)

/-- `normalize` on a project record with the empty normalizer key applies
the default normalizer. -/
theorem normalize_val_default (idx : Index) (p : String) (proj : ProjectInfo)
    (h : proj.normalizer = "") :
    idx.normalize p (.info proj) = some (defaultCode p) := by
  unfold Index.normalize normalizersGet jsOrStr
  simp [h]

/-- `normalize` on a project record with the "German" normalizer key
applies the German normalizer. -/
theorem normalize_val_german (idx : Index) (p : String) (proj : ProjectInfo)
    (h : proj.normalizer = "German") :
    idx.normalize p (.info proj) = some (germanCode p) := by
  unfold Index.normalize normalizersGet jsOrStr
  simp [h]

/-- Claim C8 (amended): `normalize` is not idempotent in general (see the
counterexample), but for either registered normalizer it is idempotent on
every phrase whose normalized form neither starts nor ends with a space
nor contains two adjacent spaces: normalizing the normal form again
returns it unchanged. -/
theorem aman_c8_amended (idx : Index) (p q : String) (proj : ProjectInfo)
    (hreg : proj.normalizer = "" ∨ proj.normalizer = "German")
    (hn : idx.normalize p (.info proj) = some q)
    (hedge : noEdgeSpace q.data = true)
    (hdbl : noDoubleSpace q.data = true) :
    idx.normalize q (.info proj) = some q := by
  rcases hreg with h | h
  · rw [normalize_val_default idx p proj h] at hn
    rw [normalize_val_default idx q proj h]
    rw [Option.some.injEq] at hn
    subst hn
    exact congrArg (fun l => some (String.mk l)) (defaultCodeL_idem p.data hedge hdbl)
  · rw [normalize_val_german idx p proj h] at hn
    rw [normalize_val_german idx q proj h]
    rw [Option.some.injEq] at hn
    subst hn
    exact congrArg (fun l => some (String.mk l)) (germanCodeL_idem p.data hedge hdbl)

/-- Witness for C8 (amended): the phrase "a b" in the default project
normalizes to itself, so a second normalization returns it unchanged. -/
theorem aman_c8_amended_witness :
    idxGer.normalize "a b" (.info makeDefaultProject) = some "a b" :=
  aman_c8_amended idxGer "a b" "a b" makeDefaultProject (Or.inl rfl) (by rfl)
    (by decide) (by decide)

end Aman
